import Mathlib

/-!
Verification of the riko binding generator and runtime against its
specification.  The definitions below are shallow embeddings of the Rust
sources:

* `Riko.Jni` — the JNI symbol mangling of `core/src/jni.rs`.
* `Riko.Returned` — the result envelope of `runtime-rust/src/returned.rs`.
* `Riko.Bridge` — the output-encoding shape of the generated bridge
  functions (`core/src/jni.rs`, `write_bridge_function`).
* `Riko.Types` — the syn type model, `unwrap_type` layer walk
  (`core/src/util.rs`) and the two marshaling-rule inference functions
  (`core/src/ir.rs` and `core/src/parse.rs`).
* `Riko.Parse` — the IR builder (`core/src/ir.rs`): module path
  resolution, `parse_items` / `parse_module`, `modules_by_path`,
  `collect_cfg`.
* `Riko.ObjectPool` — the handle pool of `runtime-rust/src/object.rs`.
* `Riko.FuturePool` — the async bridge of `runtime/src/future.rs`.

Strings that the Rust code manipulates character by character are
modelled as `List Char`; file paths are lists of path components.
-/

namespace Riko

namespace Jni

/-- JNI escaping: every underscore is replaced by the two characters
underscore-one.  Mirrors `ident.replace("_", "_1")` in
`mangle_function_name` (`core/src/jni.rs`). -/
def esc : List Char → List Char
  | [] => []
  | c :: t => if c = '_' then '_' :: '1' :: esc t else c :: esc t

/-- `Itertools::join("_")`: interleave a single underscore between the
pieces. -/
def joinSep : List (List Char) → List Char
  | [] => []
  | [a] => a
  | a :: b :: rest => a ++ '_' :: joinSep (b :: rest)

/-- The fixed internal prefix `__riko_` (`PREFIX_FOR_NATIVE`). -/
def prefixForNative : List Char := ['_', '_', 'r', 'i', 'k', 'o', '_']

/-- `mangle_function_name` of `core/src/jni.rs`:
`format!("Java_{}_Module_{}{}", prefix, esc("__riko_"), esc(name))`
where `prefix` joins the escaped crate name and escaped module path
segments with single underscores. -/
def mangleFunctionName (name : List Char) (module : List (List Char))
    (crate : List Char) : List Char :=
  ['J', 'a', 'v', 'a', '_']
    ++ joinSep (esc crate :: module.map esc)
    ++ ['_', 'M', 'o', 'd', 'u', 'l', 'e', '_']
    ++ esc prefixForNative
    ++ esc name

/-- The symbol shape claimed by the spec:
`Java_` ++ esc(p) ++ `_` ++ esc(m1) ++ ... ++ `_` ++ esc(mk) ++
`_Module_` ++ esc(`__riko_`) ++ esc(f).  Stated from the spec's words,
to be compared with `mangleFunctionName`. -/
def specMangle (name : List Char) (module : List (List Char))
    (crate : List Char) : List Char :=
  ['J', 'a', 'v', 'a', '_']
    ++ esc crate
    ++ (module.map fun m => '_' :: esc m).flatten
    ++ ['_', 'M', 'o', 'd', 'u', 'l', 'e', '_']
    ++ esc prefixForNative
    ++ esc name

/-- A string never containing an underscore that is not immediately
followed by the character one.  Every image of `esc` has this shape. -/
def noSep : List Char → Bool
  | [] => true
  | c :: t => (c ≠ '_' || t.head? == some '1') && noSep t

/-- Split a mangled string at every separator underscore (an underscore
not followed by the character one).  Inverse of `joinSep` on escaped
segments. -/
def splitSep : List Char → List (List Char)
  | [] => [[]]
  | c :: t =>
    if c = '_' && !(t.head? == some '1') then [] :: splitSep t
    else
      match splitSep t with
      | [] => [[c]]
      | g :: gs => (c :: g) :: gs

/-- Prepend a string to the first group of a split. -/
def consHead (l : List Char) : List (List Char) → List (List Char)
  | [] => [l]
  | g :: gs => (l ++ g) :: gs

/-- Identifier-shaped component: nonempty and not starting with the
digit one.  Every valid Rust identifier (crate name, module name,
function name) satisfies this, since identifiers are nonempty and never
start with a digit. -/
def GoodName (s : List Char) : Prop :=
  s ≠ [] ∧ s.head? ≠ some '1'

/-- A well-formed segment of a mangled symbol: it contains no separator
underscore, is nonempty, and does not start with the character one. -/
def GoodSeg (s : List Char) : Prop :=
  noSep s = true ∧ s ≠ [] ∧ s.head? ≠ some '1'

/-- The segments a mangled symbol splits into: the literal `Java`, the
escaped crate name, the escaped module segments, the literal `Module`,
and the escaped internal prefix and public name fused into the final
segment. -/
def mangleSegs (name : List Char) (module : List (List Char))
    (crate : List Char) : List (List Char) :=
  ['J', 'a', 'v', 'a'] :: esc crate ::
    (module.map esc ++
      [['M', 'o', 'd', 'u', 'l', 'e'], esc (prefixForNative ++ name)])

end Jni

/-- The error payload carried inside an envelope
(`runtime-rust/src/returned.rs`, `struct Error`). -/
structure RError where
  debug : String
  message : String
  deriving DecidableEq, Repr

/-- A user-side error value, abstracted to what the runtime reads off
it: its `Debug` rendering and its `Display` message. -/
structure UserError where
  debug : String
  message : String
  deriving DecidableEq, Repr

/-- `impl<T: std::error::Error> From<T> for Error`
(`runtime-rust/src/returned.rs`). -/
def RError.fromUser (e : UserError) : RError :=
  ⟨e.debug, e.message⟩

/-- The wire envelope `Returned<T>` (`runtime-rust/src/returned.rs`). -/
structure Returned (α : Type) where
  error : Option RError
  value : Option α
  deriving DecidableEq, Repr

namespace Returned

/-- `impl<T, E> From<Result<Option<T>, E>> for Returned<T>`. -/
def fromResultOption {α : Type} : Except UserError (Option α) → Returned α
  | .ok v => ⟨none, v⟩
  | .error e => ⟨some (RError.fromUser e), none⟩

/-- `impl<T, E> From<Result<T, E>> for Returned<T>`. -/
def fromResult {α : Type} : Except UserError α → Returned α
  | .ok v => ⟨none, some v⟩
  | .error e => ⟨some (RError.fromUser e), none⟩

/-- `impl<T> From<Option<T>> for Returned<T>`. -/
def fromOption {α : Type} (v : Option α) : Returned α :=
  ⟨none, v⟩

/-- `impl<T> From<T> for Returned<T>`. -/
def fromValue {α : Type} (v : α) : Returned α :=
  ⟨none, some v⟩

end Returned

namespace Types

mutual

/-- Model of a `syn::Type` as far as riko inspects it: a type path, the
unit tuple `()`, a reference, or anything else.  The leading `::` of a
path is dropped, since riko only ever renders `path.segments`, which
excludes it. -/
inductive Ty where
  | path (segs : List Seg)
  | unit
  | ref (inner : Ty)
  | other

/-- One `syn::PathSegment`: an identifier and its generic arguments.  An
empty argument list models `PathArguments::None`. -/
inductive Seg where
  | mk (ident : String) (args : List GArg)

/-- One `syn::GenericArgument`: a type, an associated-type binding, or
anything else. -/
inductive GArg where
  | ty (t : Ty)
  | binding (name : String) (t : Ty)
  | otherArg

end

mutual

/-- Token-stream rendering of a path's segments,
`segments.to_token_stream().to_string()`: segments joined by
space-colon-colon-space, generic arguments bracketed with spaces, as
proc_macro2 prints them. -/
def renderSegs : List Seg → String
  | [] => ""
  | [s] => renderSeg s
  | s :: t :: rest => renderSeg s ++ " :: " ++ renderSegs (t :: rest)

def renderSeg : Seg → String
  | .mk id args =>
    match args with
    | [] => id
    | a :: rest => id ++ " < " ++ renderArgs (a :: rest) ++ " >"

def renderArgs : List GArg → String
  | [] => ""
  | [a] => renderArg a
  | a :: b :: rest => renderArg a ++ " , " ++ renderArgs (b :: rest)

def renderArg : GArg → String
  | .ty t => renderTy t
  | .binding n t => n ++ " = " ++ renderTy t
  | .otherArg => "?"

def renderTy : Ty → String
  | .path segs => renderSegs segs
  | .unit => "( )"
  | .ref t => "& " ++ renderTy t
  | .other => "?"

end

/-- Rust's `Vec::join` / `Itertools::join` on strings. -/
def joinStr (sep : String) : List String → String
  | [] => ""
  | [a] => a
  | a :: b :: rest => a ++ sep ++ joinStr sep (b :: rest)

/-- Rust's `str::trim`.  The strings riko trims only ever carry plain
spaces, so only the space character is treated as whitespace. -/
def rustTrim (s : String) : String :=
  ⟨((s.data.dropWhile (· = ' ')).reverse.dropWhile (· = ' ')).reverse⟩

/-- Rust's `str::starts_with`. -/
def strStarts (s pre : String) : Bool :=
  pre.data.isPrefixOf s.data

/-- `assert_type_is_path` of `core/src/util.rs`: accepts a type path or
the empty tuple (which becomes the empty path). -/
def assertTypeIsPathCore : Ty → Except String (List Seg)
  | .path segs => .ok segs
  | .unit => .ok []
  | _ => .error "Expect a type path or a unit"

/-- One step of `TypeLayerIter` (`core/src/util.rs`): from the last
segment's first angle-bracketed argument, take a plain type argument or
an `Output = T` binding, as a path. -/
def nextCursor (p : List Seg) : Option (List Seg) :=
  match p.getLast? with
  | none => none
  | some (.mk _ args) =>
    match args.head? with
    | some (.ty t) => (assertTypeIsPathCore t).toOption
    | some (.binding n t) =>
      if n = "Output" then (assertTypeIsPathCore t).toOption else none
    | some .otherArg => none
    | none => none

/-- The wrapper idents stripped by `unwrap_type` (`WRAPPERS` in
`core/src/util.rs`). -/
def WRAPPERS : List String := ["Arc", "Option", "Result", "Future"]

/-- The ident of the last segment of a path (empty when the path is
empty). -/
def lastIdent (p : List Seg) : String :=
  match p.getLast? with
  | some (.mk id _) => id
  | none => ""

theorem toOption_ok {t : Ty} {q : List Seg}
    (h : (assertTypeIsPathCore t).toOption = some q) :
    assertTypeIsPathCore t = .ok q := by
  cases hc : assertTypeIsPathCore t <;> simp [hc, Except.toOption] at h
  exact h ▸ rfl

theorem assert_sizeOf {t : Ty} {q : List Seg}
    (h : assertTypeIsPathCore t = .ok q) : sizeOf q ≤ sizeOf t := by
  cases t <;> simp [assertTypeIsPathCore] at h <;> subst h <;> simp

theorem nextCursor_sizeOf {p q : List Seg} (h : nextCursor p = some q) :
    sizeOf q < sizeOf p := by
  unfold nextCursor at h
  split at h
  · exact absurd h (by simp)
  rename_i id args hl
  have hmem : Seg.mk id args ∈ p := by
    obtain ⟨hne, heq⟩ := List.mem_getLast?_eq_getLast (Option.mem_def.mpr hl)
    exact heq ▸ List.getLast_mem hne
  have hs := List.sizeOf_lt_of_mem hmem
  split at h
  next t ha =>
    have hamem : GArg.ty t ∈ args := by
      cases args with
      | nil => simp at ha
      | cons x xs => simp at ha; exact ha ▸ List.mem_cons_self x xs
    have hasz := List.sizeOf_lt_of_mem hamem
    have := assert_sizeOf (toOption_ok h)
    simp at hs hasz
    omega
  next n t ha =>
    split at h
    · have hamem : GArg.binding n t ∈ args := by
        cases args with
        | nil => simp at ha
        | cons x xs => simp at ha; exact ha ▸ List.mem_cons_self x xs
      have hasz := List.sizeOf_lt_of_mem hamem
      have := assert_sizeOf (toOption_ok h)
      simp at hs hasz
      omega
    · exact absurd h (by simp)
  next ha => exact absurd h (by simp)
  next ha => exact absurd h (by simp)

/-- `unwrap_type` of `core/src/util.rs`: walk the layers of
`TypeLayerIter` and return the first one whose last segment is not one
of the known wrappers; a layer with no segments is skipped and (being
the final layer) the default empty path is returned. -/
def unwrapType (p : List Seg) : List Seg :=
  match p.getLast? with
  | none => []
  | some (.mk id _) =>
    if WRAPPERS.contains id then
      match hn : nextCursor p with
      | some q => unwrapType q
      | none => []
    else p
termination_by sizeOf p
decreasing_by exact nextCursor_sizeOf hn

end Types

namespace Ir

/-- `MarshalingRule` of `core/src/ir.rs` (the payload-free enum; the
unwrapped type travels separately in `Input`/`Output`). -/
inductive MarshalingRule where
  | Bool | Bytes | I8 | I32 | I64 | Object | Struct | String | Unit
  deriving DecidableEq, Repr

open Types in
/-- The `matches` helper inside `MarshalingRule::infer`
(`core/src/ir.rs`): the raw string equals the candidate's last
component, or the candidate joined without its leading empty component,
or the trimmed full join. -/
def candMatches (candidate : List String) (raw : String) : Bool :=
  raw == candidate.getLastD "" ||
  raw == joinStr " :: " candidate.tail ||
  raw == rustTrim (joinStr " :: " candidate)

open Types in
/-- `MarshalingRule::infer` of `core/src/ir.rs`: match the token string
of the (already unwrapped) path's segments against the known primitive
and standard types; `Struct` is the fallback. -/
def infer (t : List Seg) : MarshalingRule :=
  let s := renderSegs t
  if s = "bool" then .Bool
  else if s = "i32" then .I32
  else if s = "i64" then .I64
  else if s = "i8" then .I8
  else if rustTrim s = "" then .Unit
  else if candMatches ["", "std", "string", "String"] s then .String
  else if candMatches ["", "serde_bytes", "ByteBuf"] s then .Bytes
  else .Struct

open Types in
/-- Rule inference as the IR builder composes it for a declared type
(`Input::parse` / `Output::parse` in `core/src/ir.rs`):
`MarshalingRule::infer(unwrap_type(t))`.  The second component is the
`unwrapped_type` stored alongside the rule. -/
def inferDeclared (t : List Seg) : MarshalingRule × List Seg :=
  (infer (unwrapType t), unwrapType t)

end Ir

namespace ParseRs

open Types

/-- `MarshalingRule` of `core/src/parse.rs`: same variants, but `Struct`
carries the qualified type path. -/
inductive PRule where
  | Bool | Bytes | I8 | I32 | I64
  | Struct (path : List Seg)
  | String | Unit

/-- `assert_type_is_path` of `core/src/parse.rs`: accepts only a type
path. -/
def assertTypeIsPathParse : Ty → Except String (List Seg)
  | .path segs => .ok segs
  | _ => .error "Expected a type path"

/-- The `matches` closure inside `Candidate::matches`
(`core/src/parse.rs`): the raw string equals the candidate, or
`Option < c >`, or starts with `Result < c , ` or
`Result < Option < c > , `. -/
def candMatchesBase (c raw : String) : Bool :=
  raw == c ||
  raw == "Option < " ++ c ++ " >" ||
  strStarts raw ("Result < " ++ c ++ " , ") ||
  strStarts raw ("Result < Option < " ++ c ++ " > , ")

/-- `Candidate::Primitive(name).matches(raw)`. -/
def candPrim (name raw : String) : Bool := candMatchesBase name raw

/-- `Candidate::Struct(path).matches(raw)`. -/
def candStruct (path : List String) (raw : String) : Bool :=
  candMatchesBase (path.getLastD "") raw ||
  candMatchesBase (joinStr " :: " path.tail) raw ||
  candMatchesBase (rustTrim (joinStr " :: " path)) raw

/-- `MarshalingRule::infer` of `core/src/parse.rs`: strip a top-level
reference, require a type path, and match its full segment token string
textually; the `Struct` fallback carries that full path. -/
def parseInfer (t : Ty) : Except String PRule :=
  let tpE :=
    match t with
    | .ref inner => assertTypeIsPathParse inner
    | _ => assertTypeIsPathParse t
  match tpE with
  | .error e => .error e
  | .ok tp =>
    let raw := renderSegs tp
    if candPrim "bool" raw then .ok .Bool
    else if candPrim "i32" raw then .ok .I32
    else if candPrim "i64" raw then .ok .I64
    else if candPrim "i8" raw then .ok .I8
    else if candPrim "( )" raw then .ok .Unit
    else if candStruct ["", "std", "string", "String"] raw then .ok .String
    else if candStruct ["", "serde_bytes", "ByteBuf"] raw then .ok .Bytes
    else .ok (.Struct tp)

/-- Constructor tag of an inference result (the mutual type model does
not support derived decidable equality, so results are compared through
this tag and `pruleRender`). -/
def kindOf : Except String PRule → Nat
  | .ok .Bool => 0
  | .ok .Bytes => 1
  | .ok .I8 => 2
  | .ok .I32 => 3
  | .ok .I64 => 4
  | .ok (.Struct _) => 5
  | .ok .String => 6
  | .ok .Unit => 7
  | .error _ => 8

/-- The rendered `Struct` payload of an inference result (empty for all
other outcomes).  `Assertable<Path>` equality in the source compares
exactly this token string. -/
def pruleRender : Except String PRule → String
  | .ok (.Struct p) => renderSegs p
  | _ => ""

/-- The concrete path `org :: example :: Love` used as a non-wrapper
type. -/
def loveSegs : List Seg := [Seg.mk "org" [], Seg.mk "example" [], Seg.mk "Love" []]

/-- The declared type `Result<Option<org::example::Love>, Error>`. -/
def declaredLove : Ty :=
  Ty.path [Seg.mk "Result"
    [GArg.ty (Ty.path [Seg.mk "Option" [GArg.ty (Ty.path loveSegs)]]),
     GArg.ty (Ty.path [Seg.mk "Error" []])]]

/-- `Result<Option<T>, E>` as a path, for arbitrary paths `T` and
`E`. -/
def mkResultOption (T E : List Seg) : List Seg :=
  [Seg.mk "Result"
    [GArg.ty (Ty.path [Seg.mk "Option" [GArg.ty (Ty.path T)]]),
     GArg.ty (Ty.path E)]]

end ParseRs

namespace Bridge

open Ir

end Bridge

namespace Parse

/-- `syn::AttrStyle`: outer `#[...]` or inner `#![...]`. -/
inductive AttrStyle where
  | outer
  | inner
  deriving DecidableEq, Repr

/-- The parsed meta of an attribute, as far as `resolve_module_path`
inspects it (`attr.parse_meta()`): a name-value pair with a string
literal (already split into path components), a name-value pair with
some other literal, or not a name-value pair at all. -/
inductive AttrMeta where
  | nameValueStr (value : List String)
  | nameValueOtherLit
  | notNameValue
  deriving DecidableEq, Repr

/-- A `syn::Attribute`: `name` is the token string of `attr.path`
(e.g. `cfg`, `path`, `riko :: ignore`), `tokens` stands for the
remaining attribute tokens and identifies the attribute's content. -/
structure Attr where
  name : String
  style : AttrStyle
  meta : AttrMeta
  tokens : String
  deriving DecidableEq, Repr

/-- `extract_cfg` (`core/src/ir.rs`): keep the `cfg` attributes, in
order, rewriting inner style to outer style. -/
def extractCfg (attrs : List Attr) : List Attr :=
  (attrs.filter fun a => a.name = "cfg").map
    fun a => ⟨a.name, AttrStyle.outer, a.meta, a.tokens⟩

/-- `find_ignore_attribute` (`core/src/ir.rs`). -/
def findIgnore (attrs : List Attr) : Bool :=
  attrs.any fun a => a.name = "riko :: ignore"

/-- A function of the IR (`ir::Function`).  Inputs and output are
omitted: the claims about the module tree only concern names and
conditional-compilation guards. -/
structure Function where
  name : String
  pubname : String
  cfg : List Attr
  deriving DecidableEq, Repr

/-- A module of the IR (`ir::Module`). -/
structure Module where
  functions : List Function
  path : List String
  cfg : List Attr
  deriving DecidableEq, Repr

/-- A crate of the IR (`ir::Crate`). -/
structure Crate where
  modules : List Module
  name : String
  deriving DecidableEq, Repr

/-- The riko error type (`Error` and `ErrorSource` of
`core/src/lib.rs`).  `file` is the source file the error is reported
at; syn error payloads are abstracted to their message strings. -/
inductive ErrSrc where
  | readSource
  | readExternalModule (file : List String) (inner : ErrSrc)
  | writeErr
  | parse (msg : String)
  | riko (msg : String)
  deriving DecidableEq, Repr

/-- `Error` of `core/src/lib.rs`: the offending file plus the cause.
The nested error inside `ReadExternalModule` is flattened into
`ErrSrc.readExternalModule` carrying the inner file and cause. -/
structure Error where
  file : List String
  source : ErrSrc
  deriving DecidableEq, Repr

/-- The result of `Fun::take_from` on a function item's attributes:
no `#[riko::fun]` attribute, a malformed one, or a parsed one (whose
`name` argument is empty when absent). -/
inductive TakeFun where
  | notRiko
  | errored (msg : String)
  | found (name : String)
  deriving DecidableEq, Repr

/-- A function item, with the syntactic sub-parsers abstracted:
`takeFun` is the outcome of `Fun::take_from(attrs)`, and `sigErr` is
the error message of `Input::parse`/`Output::parse` when the signature
does not parse (`none` when it does). -/
structure FnItem where
  sigIdent : String
  attrs : List Attr
  takeFun : TakeFun
  sigErr : Option String
  deriving DecidableEq, Repr

/-- A `syn::Item` as far as `parse_items` inspects it: a function, a
module (inline when `content` is present, external otherwise), or any
other item (skipped). -/
inductive Item where
  | fn (fi : FnItem)
  | mod (ident : String) (attrs : List Attr) (content : Option (List Item))
  | other

/-- A parsed source file: its items and its file-level attributes. -/
structure FileAst where
  items : List Item
  attrs : List Attr

/-- Outcome of reading and syn-parsing one source file. -/
inductive ReadResult where
  | readFail
  | parseFail (msg : String)
  | ok (ast : FileAst)

/-- The filesystem oracle: `read` models
`async_std::fs::read_to_string` followed by `syn::parse_file`, and
`isFile` models `Path::is_file`. -/
structure Fs where
  read : List String → ReadResult
  isFile : List String → Bool

/-- `resolve_module_path` (`core/src/ir.rs`).  File paths are lists of
components; `set_file_name` is replace-last and `pop` is drop-last.
With a `path` attribute the literal value is appended to the parent
file's directory; otherwise the sibling file `{child}.rs` (inside a
directory named after the parent when the parent is not the crate
root) is tried, falling back to `{child}/mod.rs`. -/
def resolveModulePath (isFile : List String → Bool)
    (moduleNameParent : Option String) (filePathParent : List String)
    (childIdent : String) (childAttrs : List Attr) :
    Except String (List String) :=
  match childAttrs.find? (fun a => a.name = "path") with
  | some a =>
    match a.meta with
    | .nameValueStr v => .ok (filePathParent.dropLast ++ v)
    | .nameValueOtherLit => .error "Expect a file path literal"
    | .notNameValue => .error "Expect a name-value pair"
  | none =>
    match moduleNameParent with
    | some parent =>
      let sibling := filePathParent.dropLast ++ [parent, childIdent ++ ".rs"]
      if isFile sibling then .ok sibling
      else .ok (filePathParent.dropLast ++ [parent, childIdent, "mod.rs"])
    | none =>
      let sibling := filePathParent.dropLast ++ [childIdent ++ ".rs"]
      if isFile sibling then .ok sibling
      else .ok (filePathParent.dropLast ++ [childIdent, "mod.rs"])

/-- Result of the recursive parse: success, a fatal error, or fuel
exhaustion (the Rust recursion has no fuel; the bound only limits the
module nesting depth explored by the model). -/
inductive PResult (α : Type) where
  | fuelOut
  | fatal (e : Error)
  | ok (a : α)
  deriving DecidableEq, Repr

mutual

/-- `Module::parse_items` (`core/src/ir.rs`): walk the items,
collecting exported functions and recursively parsed child modules
(in item order), then append the module currently being parsed. -/
def parseItems (fuel : Nat) (fs : Fs) (items : List Item)
    (modulePath : List String) (filePath : List String)
    (attrs : List Attr) : PResult (List Module) :=
  match parseItemsGo fuel fs items modulePath filePath with
  | .fuelOut => .fuelOut
  | .fatal e => .fatal e
  | .ok (mods, funs) =>
    .ok (mods ++ [⟨funs, modulePath, extractCfg attrs⟩])
termination_by (fuel, 1, items.length + 1)

/-- The item loop of `Module::parse_items`: returns the child modules
and the functions of the current level, in order of appearance. -/
def parseItemsGo (fuel : Nat) (fs : Fs) (items : List Item)
    (modulePath : List String) (filePath : List String) :
    PResult (List Module × List Function) :=
  match items with
  | [] => .ok ([], [])
  | .other :: rest => parseItemsGo fuel fs rest modulePath filePath
  | .fn fi :: rest =>
    if findIgnore fi.attrs then parseItemsGo fuel fs rest modulePath filePath
    else
      match fi.takeFun with
      | .notRiko => parseItemsGo fuel fs rest modulePath filePath
      | .errored msg => .fatal ⟨filePath, .riko msg⟩
      | .found name =>
        match fi.sigErr with
        | some msg => .fatal ⟨filePath, .riko msg⟩
        | none =>
          match parseItemsGo fuel fs rest modulePath filePath with
          | .fuelOut => .fuelOut
          | .fatal e => .fatal e
          | .ok (mods, funs) =>
            .ok (mods,
              ⟨fi.sigIdent, if name = "" then fi.sigIdent else name,
                extractCfg fi.attrs⟩ :: funs)
  | .mod ident attrs content :: rest =>
    if findIgnore attrs then parseItemsGo fuel fs rest modulePath filePath
    else
      match parseModule fuel fs ident attrs content modulePath filePath with
      | .fuelOut => .fuelOut
      | .fatal e => .fatal e
      | .ok childMods =>
        match parseItemsGo fuel fs rest modulePath filePath with
        | .fuelOut => .fuelOut
        | .fatal e => .fatal e
        | .ok (mods, funs) => .ok (childMods ++ mods, funs)
termination_by (fuel, 1, items.length)

/-- `Module::parse_module` (`core/src/ir.rs`): extend the module path,
resolve the child's file path, then parse the inline items (against
the parent's file) or read and parse the external file.  A failure to
read the external file becomes a fatal `ReadExternalModule` error
reported at the parent file and wrapping a `ReadSource` error at the
child file. -/
def parseModule (fuel : Nat) (fs : Fs) (ident : String)
    (attrs : List Attr) (content : Option (List Item))
    (modulePathParent : List String) (filePathParent : List String) :
    PResult (List Module) :=
  match fuel with
  | 0 => .fuelOut
  | fuel + 1 =>
    let modulePathChild := modulePathParent ++ [ident]
    match resolveModulePath fs.isFile modulePathParent.getLast?
        filePathParent ident attrs with
    | .error msg => .fatal ⟨filePathParent, .parse msg⟩
    | .ok filePathChild =>
      match content with
      | some items =>
        parseItems fuel fs items modulePathChild filePathParent attrs
      | none =>
        match fs.read filePathChild with
        | .readFail =>
          .fatal ⟨filePathParent, .readExternalModule filePathChild .readSource⟩
        | .parseFail msg => .fatal ⟨filePathChild, .parse msg⟩
        | .ok ast =>
          parseItems fuel fs ast.items modulePathChild filePathChild ast.attrs
termination_by (fuel, 0, 0)

end

/-- `Crate::parse` (`core/src/ir.rs`): read and parse the entry file,
then parse its items with the empty module path. -/
def crateParse (fuel : Nat) (fs : Fs) (src : List String) (name : String) :
    PResult Crate :=
  match fs.read src with
  | .readFail => .fatal ⟨src, .readSource⟩
  | .parseFail msg => .fatal ⟨src, .parse msg⟩
  | .ok ast =>
    match parseItems fuel fs ast.items [] src ast.attrs with
    | .fuelOut => .fuelOut
    | .fatal e => .fatal e
    | .ok mods => .ok ⟨mods, name⟩

/-- `Crate::modules_by_path` (`core/src/ir.rs`): for each index into
the path, find the module whose path is the prefix one longer; `none`
models the `expect("No such module path")` panic. -/
def modulesByPath (c : Crate) (path : List String) : Option (List Module) :=
  (List.range path.length).mapM fun idx =>
    c.modules.find? fun m => m.path = path.take (idx + 1)

/-- `Function::collect_cfg` (`core/src/ir.rs`): the cfg attributes of
every module along the function's module path, then the function's
own; `none` models the panic of `modules_by_path`. -/
def collectCfg (f : Function) (m : Module) (root : Crate) :
    Option (List Attr) :=
  (modulesByPath root m.path).map fun ms =>
    (ms.map Module.cfg).flatten ++ f.cfg

/-- A parsed module list is prefix-closed relative to the base path
`p`: every module extends `p`, and every intermediate prefix of its
path (from `p`'s length up to its own) belongs to the list. -/
def ClosedFrom (p : List String) (mods : List Module) : Prop :=
  ∀ m ∈ mods, m.path.take p.length = p ∧
    ∀ i, p.length ≤ i → i ≤ m.path.length →
      ∃ m2 ∈ mods, m2.path = m.path.take i

/-- Modules produced below a base path `p` are strict extensions of it
and carry all their intermediate prefixes longer than `p`. -/
def ClosedBelow (p : List String) (mods : List Module) : Prop :=
  ∀ m ∈ mods, m.path.take p.length = p ∧ p.length < m.path.length ∧
    ∀ i, p.length < i → i ≤ m.path.length →
      ∃ m2 ∈ mods, m2.path = m.path.take i

/-- A file-level inner `#![cfg(g)]` guard on the crate root. -/
def gAttrInner : Attr := ⟨"cfg", .inner, .notNameValue, "g"⟩

/-- The same guard after the inner-to-outer rewrite. -/
def gAttrOuter : Attr := ⟨"cfg", .outer, .notNameValue, "g"⟩

/-- An outer `#[cfg(h)]` guard on module `a`. -/
def hAttr : Attr := ⟨"cfg", .outer, .notNameValue, "h"⟩

/-- An outer `#[cfg(c)]` guard on function `f`. -/
def cAttr : Attr := ⟨"cfg", .outer, .notNameValue, "c"⟩

/-- The exported function `f` of the sample crate, guarded by `cAttr`. -/
def fItemC7 : FnItem := ⟨"f", [cAttr], .found "", none⟩

/-- Sample crate source: a root file carrying a file-level guard and an
inline module `a` (guarded by `hAttr`) containing `f`. -/
def fsC7 : Fs :=
  ⟨fun p =>
    if p = ["src", "lib.rs"] then
      .ok ⟨[Item.mod "a" [hAttr] (some [Item.fn fItemC7])], [gAttrInner]⟩
    else .readFail,
   fun _ => false⟩

/-- The function `f` as parsed. -/
def fFunC7 : Function := ⟨"f", "f", [cAttr]⟩

/-- Module `a` as parsed. -/
def modAC7 : Module := ⟨[fFunC7], ["a"], [hAttr]⟩

/-- The sample crate as parsed: module `a`, then the root module whose
guard has been rewritten to outer form. -/
def crateC7 : Crate := ⟨[modAC7, ⟨[], [], [gAttrOuter]⟩], "sample"⟩

/-- Source tree for the failing-read sample: the root file declares an
external module `ext` whose file does not exist. -/
def fsC4 : Fs :=
  ⟨fun p =>
    if p = ["src", "lib.rs"] then .ok ⟨[Item.mod "ext" [] none], []⟩
    else .readFail,
   fun _ => false⟩

end Parse

namespace ObjectPool

/-- The handle pool of `runtime-rust/src/object.rs` (`Pool`).  A stored
object `dyn Any` is modelled as a dependent pair of a type tag and a
value of the tag's type; `downcast_mut::<T>` succeeds exactly when the
tags agree.  The map is an association list with unique keys (fresh
handles come from the monotone counter), so consing models `insert` and
`eraseP` models `remove`. -/
structure Pool (V : Nat → Type) where
  pool : List (Nat × Sigma V)
  counter : Nat

/-- `Pool::store`: allocate the next handle from the counter and insert
the object; returns the handle and the new pool state. -/
def storeObj {V : Nat → Type} (σ : Pool V) (x : Sigma V) : Nat × Pool V :=
  (σ.counter, ⟨(σ.counter, x) :: σ.pool, σ.counter + 1⟩)

/-- `Pool::drop`: remove the handle's entry (at most one exists). -/
def dropObj {V : Nat → Type} (σ : Pool V) (h : Nat) : Pool V :=
  ⟨σ.pool.eraseP (fun p => p.1 == h), σ.counter⟩

/-- A pool operation interleaved between a store and a peek. -/
inductive Op (V : Nat → Type) where
  | store (x : Sigma V)
  | dropOp (h : Nat)

/-- Apply one operation to the pool state. -/
def applyOp {V : Nat → Type} (σ : Pool V) : Op V → Pool V
  | .store x => (storeObj σ x).2
  | .dropOp h => dropObj σ h

/-- Apply a sequence of operations. -/
def runOps {V : Nat → Type} (σ : Pool V) (ops : List (Op V)) : Pool V :=
  ops.foldl applyOp σ

/-- Pool invariant: every registered handle was allocated by the
counter, and keys are unique.  Holds for the empty pool and is
preserved by every operation. -/
def PoolInv {V : Nat → Type} (σ : Pool V) : Prop :=
  (∀ p ∈ σ.pool, p.1 < σ.counter) ∧ (σ.pool.map Prod.fst).Nodup

end ObjectPool

namespace FuturePool

end FuturePool

/-!
Theorems.  Sanity checks validating the embeddings against the Rust
unit tests come first, then the claim theorems with their witnesses and
counterexamples.
-/

section SanityChecks

open Types ParseRs

/-- The rendering agrees with proc_macro2 on the shapes exercised by
the `type_layers` test of `core/src/util.rs`. -/
theorem render_sanity :
    renderTy (Ty.path [Seg.mk "Result"
        [GArg.ty (Ty.path [Seg.mk "Option" [GArg.ty (Ty.path [Seg.mk "bool" []])]]),
         GArg.ty (Ty.path [Seg.mk "Error" []])]]) =
      "Result < Option < bool > , Error >" ∧
    renderTy (Ty.path [Seg.mk "Vec" [GArg.ty (Ty.path [Seg.mk "u8" []])]]) =
      "Vec < u8 >" ∧
    renderTy (Ty.path [Seg.mk "Future"
        [GArg.binding "Output" (Ty.path [Seg.mk "bool" []])]]) =
      "Future < Output = bool >" := by
  refine ⟨?_, ?_, ?_⟩ <;>
    simp only [renderTy, renderSegs, renderSeg, renderArgs, renderArg] <;> decide

/-- `unwrap_type` agrees with the `unwrap_type` test of
`core/src/util.rs` on `Result<Option<bool>, Error>`,
`Option<Vec<u8>>` and `Result<(), Error>`. -/
theorem unwrapType_sanity :
    unwrapType [Seg.mk "Result"
        [GArg.ty (Ty.path [Seg.mk "Option" [GArg.ty (Ty.path [Seg.mk "bool" []])]]),
         GArg.ty (Ty.path [Seg.mk "Error" []])]] = [Seg.mk "bool" []] ∧
    unwrapType [Seg.mk "Option"
        [GArg.ty (Ty.path [Seg.mk "Vec" [GArg.ty (Ty.path [Seg.mk "u8" []])]])]] =
      [Seg.mk "Vec" [GArg.ty (Ty.path [Seg.mk "u8" []])]] ∧
    unwrapType [Seg.mk "Result"
        [GArg.ty Ty.unit, GArg.ty (Ty.path [Seg.mk "Error" []])]] = [] := by
  refine ⟨?_, ?_, ?_⟩ <;>
    rw [unwrapType] <;>
    simp [nextCursor, assertTypeIsPathCore, Except.toOption, WRAPPERS] <;>
    rw [unwrapType] <;>
    simp [nextCursor, assertTypeIsPathCore, Except.toOption, WRAPPERS] <;>
    rw [unwrapType] <;>
    simp [WRAPPERS]

/-- `MarshalingRule::infer` of `core/src/ir.rs` agrees with its unit
test (`MarshalingRule_infer`). -/
theorem irInfer_sanity :
    Ir.infer [Seg.mk "ByteBuf" []] = .Bytes ∧
    Ir.infer [Seg.mk "String" []] = .String ∧
    Ir.infer [Seg.mk "std" [], Seg.mk "string" [], Seg.mk "String" []] = .String ∧
    Ir.infer [Seg.mk "bool" []] = .Bool ∧
    Ir.infer [Seg.mk "crate" [], Seg.mk "Love" []] = .Struct ∧
    Ir.infer [] = .Unit := by
  refine ⟨?_, ?_, ?_, ?_, ?_, ?_⟩ <;>
    simp only [Ir.infer, renderSegs, renderSeg] <;> decide

/-- `MarshalingRule::infer` of `core/src/parse.rs` agrees with its unit
test on wrapped shapes: `Result<Option<ByteBuf>, std::io::Error>` is
`Bytes`, `Result<(), Error>` is `Unit`, and a bare reference
`&String` is `String`. -/
theorem parseInfer_sanity :
    kindOf (parseInfer (Ty.path [Seg.mk "Result"
        [GArg.ty (Ty.path [Seg.mk "Option" [GArg.ty (Ty.path [Seg.mk "ByteBuf" []])]]),
         GArg.ty (Ty.path [Seg.mk "std" [], Seg.mk "io" [], Seg.mk "Error" []])]])) = 1 ∧
    kindOf (parseInfer (Ty.path [Seg.mk "Result"
        [GArg.ty Ty.unit, GArg.ty (Ty.path [Seg.mk "Error" []])]])) = 7 ∧
    kindOf (parseInfer (Ty.ref (Ty.path [Seg.mk "String" []]))) = 6 := by
  refine ⟨?_, ?_, ?_⟩ <;>
    simp only [kindOf, parseInfer, assertTypeIsPathParse, renderSegs, renderSeg,
      renderArgs, renderArg, renderTy] <;> decide

/-- The mangling agrees with the `mangle_function_name` unit test of
`core/src/jni.rs`:
`mangle("function", ["util", "unix"], "riko_sample")` is
`Java_riko_1sample_util_unix_Module__1_1riko_1function`. -/
theorem mangle_sanity :
    Jni.mangleFunctionName "function".toList
        ["util".toList, "unix".toList] "riko_sample".toList =
      "Java_riko_1sample_util_unix_Module__1_1riko_1function".toList ∧
    Jni.mangleFunctionName "function".toList [] "riko_sample".toList =
      "Java_riko_1sample_Module__1_1riko_1function".toList := by
  constructor <;> decide

end SanityChecks

section ClaimC9

/-- C9: every `Returned` envelope produced by the runtime's
conversions never has both fields present; a conversion from `Err`
yields the error (Debug and Display texts) and no value; a conversion
from `Ok(v)` or a plain value yields the value and no error; and a
conversion from `Ok(None)` or `None` yields both fields absent. -/
theorem c9_returned_conversions :
    (∀ (α : Type) (r : Except UserError (Option α)),
      ¬((Returned.fromResultOption r).error.isSome ∧
        (Returned.fromResultOption r).value.isSome)) ∧
    (∀ (α : Type) (r : Except UserError α),
      ¬((Returned.fromResult r).error.isSome ∧
        (Returned.fromResult r).value.isSome)) ∧
    (∀ (α : Type) (o : Option α),
      ¬((Returned.fromOption o).error.isSome ∧
        (Returned.fromOption o).value.isSome)) ∧
    (∀ (α : Type) (v : α),
      ¬((Returned.fromValue v).error.isSome ∧
        (Returned.fromValue v).value.isSome)) ∧
    (∀ (α : Type) (e : UserError),
      Returned.fromResult (α := α) (.error e) =
        ⟨some ⟨e.debug, e.message⟩, none⟩ ∧
      Returned.fromResultOption (α := α) (.error e) =
        ⟨some ⟨e.debug, e.message⟩, none⟩) ∧
    (∀ (α : Type) (v : α),
      Returned.fromResult (.ok v) = ⟨none, some v⟩ ∧
      Returned.fromValue v = ⟨none, some v⟩ ∧
      Returned.fromResultOption (.ok (some v)) = ⟨none, some v⟩ ∧
      Returned.fromOption (some v) = ⟨none, some v⟩) ∧
    (∀ (α : Type),
      Returned.fromResultOption (α := α) (.ok none) = ⟨none, none⟩ ∧
      Returned.fromOption (α := α) none = ⟨none, none⟩) := by
  refine ⟨?_, ?_, ?_, ?_, ?_, ?_, ?_⟩
  · intro α r; cases r <;> rename_i x <;>
      first
      | (cases x <;> simp [Returned.fromResultOption])
      | simp [Returned.fromResultOption, RError.fromUser]
  · intro α r; cases r <;> simp [Returned.fromResult, RError.fromUser]
  · intro α o; cases o <;> simp [Returned.fromOption]
  · intro α v; simp [Returned.fromValue]
  · intro α e; exact ⟨rfl, rfl⟩
  · intro α v; exact ⟨rfl, rfl, rfl, rfl⟩
  · intro α; exact ⟨rfl, rfl⟩

end ClaimC9

section ClaimC5

open Bridge Ir

end ClaimC5

section ClaimC6

open Types ParseRs

theorem unwrap_nonwrapper (T : List Seg) (h1 : T ≠ [])
    (h2 : ¬ WRAPPERS.contains (lastIdent T)) : unwrapType T = T := by
  rw [unwrapType]
  split
  next hl => exact absurd (List.getLast?_eq_none_iff.mp hl) h1
  next id args hl =>
    rw [if_neg]
    intro hc
    exact h2 (by simpa [lastIdent, hl] using hc)

theorem unwrapType_wrapper_step (p q : List Seg)
    (hw : WRAPPERS.contains (lastIdent p)) (hq : nextCursor p = some q)
    (hne : p ≠ []) : unwrapType p = unwrapType q := by
  rw [unwrapType]
  split
  next hl => exact absurd (List.getLast?_eq_none_iff.mp hl) hne
  next id args hl =>
    rw [if_pos (by simpa [lastIdent, hl] using hw)]
    split
    next q2 hq2 => rw [hq2] at hq; injection hq with h; rw [h]
    next hq2 => rw [hq2] at hq; cases hq

theorem unwrap_resultOption (T E : List Seg) (h1 : T ≠ [])
    (h2 : ¬ WRAPPERS.contains (lastIdent T)) :
    unwrapType (mkResultOption T E) = T := by
  have s1 := unwrapType_wrapper_step (mkResultOption T E)
    [Seg.mk "Option" [GArg.ty (Ty.path T)]]
    (by simp [lastIdent, mkResultOption, WRAPPERS])
    (by simp [nextCursor, mkResultOption, assertTypeIsPathCore, Except.toOption])
    (by simp [mkResultOption])
  have s2 := unwrapType_wrapper_step [Seg.mk "Option" [GArg.ty (Ty.path T)]] T
    (by simp [lastIdent, WRAPPERS])
    (by simp [nextCursor, assertTypeIsPathCore, Except.toOption])
    (by simp)
  rw [s1, s2, unwrap_nonwrapper T h1 h2]

/-- C6 counterexample: the textual `MarshalingRule::infer` of
`core/src/parse.rs` does not satisfy the claim at
`T = org::example::Love`: inferring the declared type
`Result<Option<org::example::Love>, Error>` and inferring `T` both
fall back to `Struct`, but the carried qualified type path is the
whole declared path in the first case and `T`'s path in the second, so
the two rules differ. -/
theorem c6_counterexample :
    parseInfer declaredLove ≠ parseInfer (Ty.path loveSegs) := by
  intro h
  have h2 := congrArg pruleRender h
  have hL : pruleRender (parseInfer declaredLove) =
      "Result < Option < org :: example :: Love > , Error >" := by
    simp only [pruleRender, parseInfer, declaredLove, loveSegs,
      assertTypeIsPathParse, renderSegs, renderSeg, renderArgs, renderArg,
      renderTy]
    decide
  have hR : pruleRender (parseInfer (Ty.path loveSegs)) =
      "org :: example :: Love" := by
    simp only [pruleRender, parseInfer, loveSegs, assertTypeIsPathParse,
      renderSegs, renderSeg]
    decide
  rw [hL, hR] at h2
  exact absurd h2 (by decide)

/-- C6 (amended): for the canonical layer-walk inference pipeline of
`core/src/ir.rs` (`unwrap_type` then `MarshalingRule::infer`),
inference is a pure function of the unwrapped innermost type and is
idempotent over wrapper stripping: for every path `T` that is not
itself a wrapper (`Arc`, `Option`, `Result`, `Future`) and every error
path `E`, unwrapping `Result<Option<T>, E>` yields exactly `T`, so the
inferred rule and the carried unwrapped type of the declared type
coincide with those of `T`.  (The textual infer of `core/src/parse.rs`
agrees on the rule kind but carries the whole declared path in its
`Struct` fallback, per `c6_counterexample`.) -/
theorem c6_infer_idempotent (T E : List Seg) (h1 : T ≠ [])
    (h2 : ¬ WRAPPERS.contains (lastIdent T)) :
    unwrapType (mkResultOption T E) = T ∧
    unwrapType T = T ∧
    Ir.inferDeclared (mkResultOption T E) = Ir.inferDeclared T := by
  have hu1 := unwrap_resultOption T E h1 h2
  have hu2 := unwrap_nonwrapper T h1 h2
  refine ⟨hu1, hu2, ?_⟩
  simp [Ir.inferDeclared, hu1, hu2]

/-- Witness for `c6_infer_idempotent` at `T = org::example::Love`,
`E = Error`. -/
theorem c6_infer_idempotent_witness :
    loveSegs ≠ [] ∧
    ¬ WRAPPERS.contains (lastIdent loveSegs) ∧
    unwrapType (mkResultOption loveSegs [Seg.mk "Error" []]) = loveSegs :=
  ⟨by simp [loveSegs], by decide,
    (c6_infer_idempotent loveSegs [Seg.mk "Error" []] (by simp [loveSegs])
      (by decide)).1⟩

end ClaimC6

section ClaimC1

open Jni

theorem esc_append (a b : List Char) : esc (a ++ b) = esc a ++ esc b := by
  induction a with
  | nil => simp [esc]
  | cons c t ih =>
    by_cases hc : c = '_' <;> simp [esc, hc, ih]

theorem esc_nil_iff (s : List Char) : esc s = [] ↔ s = [] := by
  cases s with
  | nil => simp [esc]
  | cons c t =>
    constructor
    · intro h
      by_cases hc : c = '_' <;> simp [esc, hc] at h
    · intro h; cases h

theorem esc_injective (s1 s2 : List Char) (h : esc s1 = esc s2) :
    s1 = s2 := by
  induction s1 generalizing s2 with
  | nil =>
    simp only [esc] at h
    exact ((esc_nil_iff s2).mp h.symm).symm
  | cons c t ih =>
    cases s2 with
    | nil =>
      by_cases hc : c = '_' <;> simp [esc, hc] at h
    | cons d u =>
      by_cases hc : c = '_' <;> by_cases hd : d = '_'
      · subst hc; subst hd
        rw [esc, esc, if_pos rfl, if_pos rfl] at h
        injection h with h1 h2
        injection h2 with h3 h4
        rw [ih u h4]
      · subst hc
        rw [esc, esc, if_pos rfl, if_neg hd] at h
        injection h with h1 h2
        exact absurd h1.symm hd
      · subst hd
        rw [esc, esc, if_neg hc, if_pos rfl] at h
        injection h with h1 h2
        exact absurd h1 hc
      · rw [esc, esc, if_neg hc, if_neg hd] at h
        injection h with h1 h2
        rw [h1, ih u h2]

theorem noSep_esc (s : List Char) : noSep (esc s) = true := by
  induction s with
  | nil => rfl
  | cons c t ih =>
    by_cases hc : c = '_'
    · subst hc
      rw [esc, if_pos rfl]
      simp [noSep, ih]
    · rw [esc, if_neg hc]
      simp [noSep, hc, ih]

theorem esc_head (s : List Char) (h1 : s ≠ []) (h2 : s.head? ≠ some '1') :
    (esc s).head? ≠ some '1' := by
  cases s with
  | nil => exact absurd rfl h1
  | cons c t =>
    by_cases hc : c = '_' <;> simp [esc, hc] at h2 ⊢
    exact h2

theorem splitSep_ne_nil (l : List Char) : splitSep l ≠ [] := by
  induction l with
  | nil => simp [splitSep]
  | cons c t ih =>
    rw [splitSep]
    split
    · simp
    · cases h : splitSep t <;> simp

theorem splitSep_append (l m : List Char) (h : noSep l = true) :
    splitSep (l ++ m) = consHead l (splitSep m) := by
  induction l with
  | nil =>
    cases hm : splitSep m with
    | nil => exact absurd hm (splitSep_ne_nil m)
    | cons g gs => simp [consHead, hm]
  | cons c t ih =>
    simp only [noSep, Bool.and_eq_true, Bool.or_eq_true] at h
    obtain ⟨hc, ht⟩ := h
    have ihr := ih ht
    rw [List.cons_append, splitSep]
    have hcond : (c = '_' && !((t ++ m).head? == some '1')) = false := by
      rcases hc with hc | hc
      · simp at hc
        simp [hc]
      · simp at hc
        cases t with
        | nil => simp at hc
        | cons d u =>
          simp at hc
          simp [hc]
    rw [hcond]
    simp only [Bool.false_eq_true, if_false]
    rw [ihr]
    cases hm : splitSep m with
    | nil => exact absurd hm (splitSep_ne_nil m)
    | cons g gs => simp [consHead]

theorem joinSep_ne_nil (b : List Char) (rest : List (List Char))
    (hb : b ≠ []) : joinSep (b :: rest) ≠ [] := by
  cases rest with
  | nil => simpa [joinSep]
  | cons x xs => simp [joinSep, hb]

theorem joinSep_head (b : List Char) (rest : List (List Char))
    (hb : b ≠ []) : (joinSep (b :: rest)).head? = b.head? := by
  cases rest with
  | nil => simp [joinSep]
  | cons x xs =>
    cases b with
    | nil => exact absurd rfl hb
    | cons c t => simp [joinSep]

theorem splitSep_joinSep (segs : List (List Char))
    (hg : ∀ a ∈ segs, GoodSeg a) (hne : segs ≠ []) :
    splitSep (joinSep segs) = segs := by
  induction segs with
  | nil => exact absurd rfl hne
  | cons a rest ih =>
    obtain ⟨ha1, ha2, ha3⟩ := hg a (by simp)
    cases rest with
    | nil =>
      rw [joinSep]
      have := splitSep_append a [] ha1
      simpa [splitSep, consHead] using this
    | cons b rest2 =>
      obtain ⟨hb1, hb2, hb3⟩ := hg b (by simp)
      rw [joinSep, splitSep_append a ('_' :: joinSep (b :: rest2)) ha1]
      have hj : splitSep ('_' :: joinSep (b :: rest2)) =
          [] :: splitSep (joinSep (b :: rest2)) := by
        rw [splitSep]
        have hhead : (joinSep (b :: rest2)).head? ≠ some '1' := by
          rw [joinSep_head b rest2 hb2]; exact hb3
        rw [if_pos (by simp [hhead])]
      rw [hj]
      have ihr := ih (fun x hx => hg x (by simp [hx])) (by simp)
      rw [consHead, ihr]
      simp

theorem joinSep_append_two (xs : List (List Char)) (y z : List Char)
    (hxs : xs ≠ []) :
    joinSep (xs ++ [y, z]) = joinSep xs ++ '_' :: (y ++ '_' :: z) := by
  induction xs with
  | nil => exact absurd rfl hxs
  | cons a rest ih =>
    cases rest with
    | nil => simp [joinSep]
    | cons b rest2 =>
      have := ih (by simp)
      simp only [List.cons_append, List.append_eq, joinSep] at this ⊢
      rw [this]
      simp

theorem joinSep_esc (m : List (List Char)) (c : List Char) :
    joinSep (esc c :: m.map esc) =
      esc c ++ (m.map fun x => '_' :: esc x).flatten := by
  induction m generalizing c with
  | nil => simp [joinSep]
  | cons x xs ih =>
    simp only [List.map_cons, joinSep, List.flatten]
    rw [ih x]
    simp

theorem mangle_eq_joinSep (name : List Char) (module : List (List Char))
    (crate : List Char) :
    mangleFunctionName name module crate =
      joinSep (mangleSegs name module crate) := by
  rw [mangleSegs, joinSep, ← List.cons_append]
  rw [joinSep_append_two (esc crate :: module.map esc) _ _ (by simp)]
  rw [mangleFunctionName, esc_append]
  simp

theorem mangleSegs_good (name : List Char) (module : List (List Char))
    (crate : List Char) (hc : GoodName crate)
    (hm : ∀ x ∈ module, GoodName x) :
    ∀ a ∈ mangleSegs name module crate, GoodSeg a := by
  intro a ha
  rw [mangleSegs] at ha
  rcases List.mem_cons.mp ha with rfl | ha
  · exact ⟨by decide, by decide, by decide⟩
  rcases List.mem_cons.mp ha with rfl | ha
  · exact ⟨noSep_esc crate, fun h => hc.1 ((esc_nil_iff crate).mp h),
      esc_head crate hc.1 hc.2⟩
  rcases List.mem_append.mp ha with ha | ha
  · obtain ⟨x, hx, rfl⟩ := List.mem_map.mp ha
    exact ⟨noSep_esc x, fun h => (hm x hx).1 ((esc_nil_iff x).mp h),
      esc_head x (hm x hx).1 (hm x hx).2⟩
  rcases List.mem_cons.mp ha with rfl | ha
  · exact ⟨by decide, by decide, by decide⟩
  rcases List.mem_cons.mp ha with rfl | ha
  · refine ⟨noSep_esc _, ?_, ?_⟩
    · intro h
      have := (esc_nil_iff _).mp h
      simp [prefixForNative] at this
    · exact esc_head _ (by simp [prefixForNative]) (by simp [prefixForNative])
  · exact absurd ha (List.not_mem_nil a)

theorem mangle_injective (name1 name2 : List Char)
    (module1 module2 : List (List Char)) (crate1 crate2 : List Char)
    (hc1 : GoodName crate1) (hc2 : GoodName crate2)
    (hm1 : ∀ x ∈ module1, GoodName x) (hm2 : ∀ x ∈ module2, GoodName x)
    (h : mangleFunctionName name1 module1 crate1 =
      mangleFunctionName name2 module2 crate2) :
    crate1 = crate2 ∧ module1 = module2 ∧ name1 = name2 := by
  rw [mangle_eq_joinSep, mangle_eq_joinSep] at h
  have hsegs : mangleSegs name1 module1 crate1 =
      mangleSegs name2 module2 crate2 := by
    have h1 := splitSep_joinSep _ (mangleSegs_good name1 module1 crate1 hc1 hm1)
      (by simp [mangleSegs])
    have h2 := splitSep_joinSep _ (mangleSegs_good name2 module2 crate2 hc2 hm2)
      (by simp [mangleSegs])
    rw [← h1, ← h2, h]
  rw [mangleSegs, mangleSegs] at hsegs
  injection hsegs with hJ hrest
  injection hrest with hcr hrest2
  have hlen : (module1.map esc).length = (module2.map esc).length := by
    have := congrArg List.length hrest2
    simp at this
    simpa using this
  obtain ⟨hmods, htail⟩ := List.append_inj hrest2 hlen
  refine ⟨esc_injective _ _ hcr, ?_, ?_⟩
  · exact List.map_injective_iff.mpr (fun a b hab => esc_injective a b hab) hmods
  · injection htail with hMod htail2
    injection htail2 with hlast
    have := esc_injective _ _ hlast
    exact List.append_cancel_left this

/-- C1: the emitted bridge symbol is exactly
`Java_` ++ esc(crate) ++ `_` ++ esc(m1) ++ ... ++ `_` ++ esc(mk) ++
`_Module_` ++ esc(`__riko_`) ++ esc(name), where esc replaces every
underscore by underscore-one; the mapping is a function of the triple
(hence deterministic), and it is injective on identifier-shaped inputs:
two triples whose crate name and module segments are nonempty and do
not start with a digit collide only if they are equal. -/
theorem c1_mangle_formula_injective :
    (∀ (name crate : List Char) (module : List (List Char)),
      mangleFunctionName name module crate = specMangle name module crate) ∧
    (∀ (name1 name2 crate1 crate2 : List Char)
        (module1 module2 : List (List Char)),
      GoodName crate1 → GoodName crate2 →
      (∀ x ∈ module1, GoodName x) → (∀ x ∈ module2, GoodName x) →
      mangleFunctionName name1 module1 crate1 =
        mangleFunctionName name2 module2 crate2 →
      crate1 = crate2 ∧ module1 = module2 ∧ name1 = name2) := by
  constructor
  · intro name crate module
    rw [mangleFunctionName, specMangle, joinSep_esc]
    simp
  · intro name1 name2 crate1 crate2 module1 module2 hc1 hc2 hm1 hm2 h
    exact mangle_injective name1 name2 module1 module2 crate1 crate2
      hc1 hc2 hm1 hm2 h

/-- Witness for `c1_mangle_formula_injective` at the triple
(`riko_sample`, [`util`], `function`) from the source's unit test. -/
theorem c1_mangle_formula_injective_witness :
    GoodName "riko_sample".toList ∧
    (∀ x ∈ [("util".toList : List Char)], GoodName x) ∧
    mangleFunctionName "function".toList ["util".toList]
        "riko_sample".toList =
      specMangle "function".toList ["util".toList] "riko_sample".toList ∧
    ("riko_sample".toList = "riko_sample".toList ∧
      [("util".toList : List Char)] = ["util".toList] ∧
      "function".toList = "function".toList) :=
  ⟨by constructor <;> decide,
    by intro x hx; rw [List.mem_singleton.mp hx]; constructor <;> decide,
    c1_mangle_formula_injective.1 "function".toList "riko_sample".toList
      ["util".toList],
    c1_mangle_formula_injective.2 "function".toList "function".toList
      "riko_sample".toList "riko_sample".toList ["util".toList]
      ["util".toList]
      ⟨by decide, by decide⟩ ⟨by decide, by decide⟩
      (by intro x hx; rw [List.mem_singleton.mp hx]; exact ⟨by decide, by decide⟩)
      (by intro x hx; rw [List.mem_singleton.mp hx]; exact ⟨by decide, by decide⟩)
      rfl⟩

end ClaimC1

section ClaimC3

open ObjectPool

variable {V : Nat → Type}

theorem inv_applyOp {σ : Pool V} (hInv : PoolInv σ) (op : Op V) :
    PoolInv (applyOp σ op) := by
  obtain ⟨hbound, hnd⟩ := hInv
  cases op with
  | store x =>
    constructor
    · intro p hp
      simp only [applyOp, storeObj] at hp ⊢
      rcases List.mem_cons.mp hp with rfl | hp
      · simp
      · exact Nat.lt_succ_of_lt (hbound p hp)
    · simp only [applyOp, storeObj, List.map_cons, List.nodup_cons]
      refine ⟨fun hc => ?_, hnd⟩
      obtain ⟨p, hp, hp1⟩ := List.mem_map.mp hc
      exact absurd (hp1 ▸ hbound p hp) (Nat.lt_irrefl _)
  | dropOp h =>
    have hsub : (σ.pool.eraseP fun p => p.1 == h).Sublist σ.pool :=
      List.eraseP_sublist σ.pool
    constructor
    · intro p hp
      exact hbound p (hsub.mem hp)
    · exact List.Nodup.sublist (hsub.map Prod.fst) hnd

theorem inv_runOps {σ : Pool V} (hInv : PoolInv σ) (ops : List (Op V)) :
    PoolInv (runOps σ ops) := by
  induction ops generalizing σ with
  | nil => exact hInv
  | cons op rest ih => exact ih (inv_applyOp hInv op)

end ClaimC3

section ClaimC2

open FuturePool

end ClaimC2

section ClaimC8

open Parse

theorem parseItems_last {fuel : Nat} {fs : Fs} {items : List Item}
    {mp fp : List String} {attrs : List Attr} {mods : List Module}
    (h : parseItems fuel fs items mp fp attrs = .ok mods) :
    (mods.getLast?).map Module.path = some mp := by
  rw [parseItems] at h
  split at h
  · cases h
  · cases h
  · rename_i mods2 funs heq
    injection h with h2
    subst h2
    rw [List.getLast?_concat]
    rfl

/-- C8: module file-path resolution.  With an explicit `path` override
attribute the literal value is used verbatim relative to the parent
file's directory.  Otherwise the sibling file `{child}.rs` is tried
first — next to the parent at the crate root, under a directory named
after the parent module otherwise — and only if that is not an
existing file does resolution fall back to `{child}/mod.rs`.  An
inline child module's IR path is the parent's path plus its own name
segment. -/
theorem c8_module_path_resolution :
    (∀ (isFile : List String → Bool) (pname : Option String)
        (pfile : List String) (ident : String) (attrs : List Attr)
        (a : Attr) (v : List String),
      attrs.find? (fun a => a.name = "path") = some a →
      a.meta = .nameValueStr v →
      resolveModulePath isFile pname pfile ident attrs =
        .ok (pfile.dropLast ++ v)) ∧
    (∀ (isFile : List String → Bool) (parent : String)
        (pfile : List String) (ident : String) (attrs : List Attr),
      attrs.find? (fun a => a.name = "path") = none →
      resolveModulePath isFile (some parent) pfile ident attrs =
        .ok (if isFile (pfile.dropLast ++ [parent, ident ++ ".rs"])
          then pfile.dropLast ++ [parent, ident ++ ".rs"]
          else pfile.dropLast ++ [parent, ident, "mod.rs"])) ∧
    (∀ (isFile : List String → Bool) (pfile : List String)
        (ident : String) (attrs : List Attr),
      attrs.find? (fun a => a.name = "path") = none →
      resolveModulePath isFile none pfile ident attrs =
        .ok (if isFile (pfile.dropLast ++ [ident ++ ".rs"])
          then pfile.dropLast ++ [ident ++ ".rs"]
          else pfile.dropLast ++ [ident, "mod.rs"])) ∧
    (∀ (fuel : Nat) (fs : Fs) (ident : String) (attrs : List Attr)
        (items : List Item) (mp fp : List String) (mods : List Module),
      parseModule (fuel + 1) fs ident attrs (some items) mp fp = .ok mods →
      (mods.getLast?).map Module.path = some (mp ++ [ident])) := by
  refine ⟨?_, ?_, ?_, ?_⟩
  · intro isFile pname pfile ident attrs a v hfind hmeta
    unfold resolveModulePath
    rw [hfind]
    obtain ⟨an, ast, am, atk⟩ := a
    obtain rfl : am = .nameValueStr v := hmeta
    rfl
  · intro isFile parent pfile ident attrs hfind
    unfold resolveModulePath
    rw [hfind]
    by_cases hif : isFile (pfile.dropLast ++ [parent, ident ++ ".rs"]) <;>
      simp [hif]
  · intro isFile pfile ident attrs hfind
    unfold resolveModulePath
    rw [hfind]
    by_cases hif : isFile (pfile.dropLast ++ [ident ++ ".rs"]) <;>
      simp [hif]
  · intro fuel fs ident attrs items mp fp mods h
    rw [parseModule] at h
    split at h
    · cases h
    · rename_i r hres
      exact parseItems_last h

/-- Witness for `c8_module_path_resolution`: an override, the two
fallback shapes, and an inline module. -/
theorem c8_module_path_resolution_witness :
    (([⟨"path", .outer, .nameValueStr ["widgets", "unix.rs"], ""⟩] :
        List Attr).find? (fun a => a.name = "path") =
      some ⟨"path", .outer, .nameValueStr ["widgets", "unix.rs"], ""⟩) ∧
    resolveModulePath (fun _ => false) (some "util") ["src", "lib.rs"]
        "unix"
        [⟨"path", AttrStyle.outer, AttrMeta.nameValueStr ["widgets", "unix.rs"], ""⟩] =
      .ok ["src", "widgets", "unix.rs"] ∧
    resolveModulePath (fun _ => false) (some "util") ["src", "util.rs"]
        "unix" [] =
      .ok ["src", "util", "unix", "mod.rs"] ∧
    resolveModulePath (fun p => p = ["src", "unix.rs"]) none
        ["src", "lib.rs"] "unix" [] =
      .ok ["src", "unix.rs"] := by
  refine ⟨by decide, ?_, ?_, ?_⟩
  · exact c8_module_path_resolution.1 (fun _ => false) (some "util")
      ["src", "lib.rs"] "unix"
      [⟨"path", .outer, .nameValueStr ["widgets", "unix.rs"], ""⟩]
      ⟨"path", .outer, .nameValueStr ["widgets", "unix.rs"], ""⟩
      ["widgets", "unix.rs"] (by decide) rfl
  · have := c8_module_path_resolution.2.1 (fun _ => false) "util"
      ["src", "util.rs"] "unix" [] rfl
    simpa using this
  · have := c8_module_path_resolution.2.2.1 (fun p => p = ["src", "unix.rs"])
      ["src", "lib.rs"] "unix" [] rfl
    simpa using this

end ClaimC8

section ClaimC4

open Parse

/-- C4 counterexample: parsing a crate whose root declares an external
module `ext` with a missing file does not recover by skipping the
module — the whole parse aborts with a fatal `ReadExternalModule`
error (reported at the parent file, wrapping a `ReadSource` error at
the resolved child file), so no Crate is produced. -/
theorem c4_counterexample :
    crateParse 2 fsC4 ["src", "lib.rs"] "sample" =
      .fatal ⟨["src", "lib.rs"],
        .readExternalModule ["src", "ext", "mod.rs"] .readSource⟩ := by
  simp +decide [crateParse, parseItems, parseItemsGo, parseModule,
    resolveModulePath, fsC4, findIgnore]

/-- C4 (amended): a failure to read an external module's resolved file
is fatal, not recoverable: `parse_module` aborts with an
`ExternalModuleReadError` reported at the parent file and wrapping a
`ReadSource` error carrying the child file path; a syntax failure in
the child file is likewise fatal and carries the child file path. -/
theorem c4_external_module_read_fatal :
    (∀ (fuel : Nat) (fs : Fs) (ident : String) (attrs : List Attr)
        (mp fp r : List String),
      resolveModulePath fs.isFile mp.getLast? fp ident attrs = .ok r →
      fs.read r = .readFail →
      parseModule (fuel + 1) fs ident attrs none mp fp =
        .fatal ⟨fp, .readExternalModule r .readSource⟩) ∧
    (∀ (fuel : Nat) (fs : Fs) (ident : String) (attrs : List Attr)
        (mp fp r : List String) (msg : String),
      resolveModulePath fs.isFile mp.getLast? fp ident attrs = .ok r →
      fs.read r = .parseFail msg →
      parseModule (fuel + 1) fs ident attrs none mp fp =
        .fatal ⟨r, .parse msg⟩) := by
  constructor
  · intro fuel fs ident attrs mp fp r hres hread
    rw [parseModule]
    simp only [hres, hread]
  · intro fuel fs ident attrs mp fp r msg hres hread
    rw [parseModule]
    simp only [hres, hread]

/-- Witness for `c4_external_module_read_fatal` on the sample tree. -/
theorem c4_external_module_read_fatal_witness :
    resolveModulePath fsC4.isFile ([] : List String).getLast?
        ["src", "lib.rs"] "ext" [] = .ok ["src", "ext", "mod.rs"] ∧
    fsC4.read ["src", "ext", "mod.rs"] = .readFail ∧
    parseModule 2 fsC4 "ext" [] none [] ["src", "lib.rs"] =
      .fatal ⟨["src", "lib.rs"],
        .readExternalModule ["src", "ext", "mod.rs"] .readSource⟩ :=
  ⟨rfl, rfl,
    c4_external_module_read_fatal.1 1 fsC4 "ext" [] [] ["src", "lib.rs"]
      ["src", "ext", "mod.rs"] rfl rfl⟩

end ClaimC4

section ClaimC7

open Parse

theorem mapM_option_forall2 {α β : Type} (g : α → Option β) :
    ∀ (l : List α) (res : List β), l.mapM g = some res →
      List.Forall₂ (fun a b => g a = some b) l res := by
  intro l
  induction l with
  | nil =>
    intro res h
    rw [List.mapM_nil] at h
    cases h
    exact List.Forall₂.nil
  | cons a t ih =>
    intro res h
    rw [List.mapM_cons] at h
    cases hga : g a with
    | none =>
      rw [hga] at h
      simp at h
    | some b =>
      rw [hga] at h
      cases hmt : t.mapM g with
      | none =>
        rw [hmt] at h
        simp at h
      | some bs =>
        rw [hmt] at h
        simp at h
        subst h
        exact List.Forall₂.cons hga (ih bs hmt)

/-- C7 counterexample: in the parsed sample crate (file-level inner
guard `g` on the crate root, guard `h` on module `a`, guard `c` on
function `f` inside `a`), `collect_cfg` returns only `[h, c]` — the
crate root module's guard `g` is never collected, because
`modules_by_path` enumerates only the nonempty prefixes of the
module path.  The claimed root-down list would be `[g, h, c]`. -/
theorem c7_counterexample :
    crateParse 2 fsC7 ["src", "lib.rs"] "sample" = .ok crateC7 ∧
    collectCfg fFunC7 modAC7 crateC7 = some [hAttr, cAttr] ∧
    ([hAttr, cAttr] : List Attr) ≠ [gAttrOuter, hAttr, cAttr] := by
  refine ⟨?_, by decide, by decide⟩
  simp +decide [crateParse, parseItems, parseItemsGo, parseModule,
    resolveModulePath, fsC7, findIgnore, fItemC7, extractCfg, hAttr, cAttr,
    gAttrInner, gAttrOuter, crateC7, modAC7, fFunC7]

/-- C7 (amended): `collect_cfg` returns exactly the guards of the
modules at the nonempty prefixes of the function's module path —
root-to-leaf order, each level's guards in their original order —
followed by the function's own guards; the crate root module (empty
path) is excluded.  Guards pass through `extract_cfg`, which rewrites
inner-form attributes to outer form. -/
theorem c7_collect_cfg :
    (∀ (cr : Crate) (m : Module) (f : Function) (ms : List Module),
      modulesByPath cr m.path = some ms →
      collectCfg f m cr = some ((ms.map Module.cfg).flatten ++ f.cfg) ∧
      ms.length = m.path.length ∧
      ∀ (i : Nat) (h2 : i < ms.length),
        (ms.get ⟨i, h2⟩).path = m.path.take (i + 1)) ∧
    (∀ (attrs : List Attr) (a : Attr), a ∈ extractCfg attrs →
      a.style = .outer) := by
  constructor
  · intro cr m f ms hms
    refine ⟨by simp [collectCfg, hms], ?_, ?_⟩
    · have hf := mapM_option_forall2 _ _ _ hms
      have := List.forall₂_iff_get.mp hf
      simpa using this.1.symm
    · intro i h2
      have hf := mapM_option_forall2 _ _ _ hms
      obtain ⟨hlen, hget⟩ := List.forall₂_iff_get.mp hf
      have hi : i < (List.range m.path.length).length := by
        rw [hlen]; exact h2
      have := hget i hi h2
      rw [List.get_range] at this
      have hfind := List.find?_some this
      exact of_decide_eq_true hfind
  · intro attrs a ha
    simp only [extractCfg, List.mem_map] at ha
    obtain ⟨b, hb, rfl⟩ := ha
    rfl

/-- Witness for `c7_collect_cfg` on the parsed sample crate. -/
theorem c7_collect_cfg_witness :
    modulesByPath crateC7 modAC7.path = some [modAC7] ∧
    collectCfg fFunC7 modAC7 crateC7 =
      some (([modAC7].map Module.cfg).flatten ++ fFunC7.cfg) :=
  ⟨by decide,
    (c7_collect_cfg.1 crateC7 modAC7 fFunC7 [modAC7] (by decide)).1⟩

end ClaimC7

section ClaimC10

open Parse

theorem closedBelow_append {p : List String} {A B : List Module}
    (hA : ClosedBelow p A) (hB : ClosedBelow p B) :
    ClosedBelow p (A ++ B) := by
  intro m hm
  rcases List.mem_append.mp hm with hm | hm
  · obtain ⟨h1, h2, h3⟩ := hA m hm
    exact ⟨h1, h2, fun i hi1 hi2 => by
      obtain ⟨m2, hm2, hp2⟩ := h3 i hi1 hi2
      exact ⟨m2, List.mem_append.mpr (Or.inl hm2), hp2⟩⟩
  · obtain ⟨h1, h2, h3⟩ := hB m hm
    exact ⟨h1, h2, fun i hi1 hi2 => by
      obtain ⟨m2, hm2, hp2⟩ := h3 i hi1 hi2
      exact ⟨m2, List.mem_append.mpr (Or.inr hm2), hp2⟩⟩

theorem closedBelow_of_closedFrom {p : List String} {x : String}
    {mods : List Module} (h : ClosedFrom (p ++ [x]) mods) :
    ClosedBelow p mods := by
  intro m hm
  obtain ⟨h1, h2⟩ := h m hm
  simp only [List.length_append, List.length_singleton] at h1
  have hlen : p.length + 1 ≤ m.path.length := by
    have hl := congrArg List.length h1
    simp only [List.length_take, List.length_append,
      List.length_singleton] at hl
    omega
  refine ⟨?_, by omega, fun i hi1 hi2 =>
    h2 i (by simp only [List.length_append, List.length_singleton]; omega)
      hi2⟩
  have ht : List.take p.length m.path =
      List.take p.length (List.take (p.length + 1) m.path) := by
    rw [List.take_take]
    congr 1
    omega
  rw [ht, h1]
  have := List.take_left p [x]
  simpa using this

theorem goP_of_modP (fuel : Nat) (fs : Fs)
    (hmod : ∀ (ident : String) (attrs : List Attr)
      (content : Option (List Item)) (mp fp : List String)
      (mods : List Module),
      parseModule fuel fs ident attrs content mp fp = .ok mods →
      ClosedBelow mp mods) :
    ∀ (items : List Item) (mp fp : List String) (mods : List Module)
      (funs : List Function),
      parseItemsGo fuel fs items mp fp = .ok (mods, funs) →
      ClosedBelow mp mods := by
  intro items
  induction items with
  | nil =>
    intro mp fp mods funs h
    rw [parseItemsGo] at h
    injection h with h2
    injection h2 with h3 h4
    subst h3
    intro m hm
    cases hm
  | cons it rest ih =>
    intro mp fp mods funs h
    cases it with
    | other =>
      rw [parseItemsGo] at h
      exact ih mp fp mods funs h
    | fn fi =>
      rw [parseItemsGo] at h
      split at h
      · exact ih mp fp mods funs h
      · split at h
        · exact ih mp fp mods funs h
        · cases h
        · split at h
          · cases h
          · split at h
            · cases h
            · cases h
            · rename_i mods2 funs2 heq
              injection h with h2
              injection h2 with h3 h4
              subst h3
              exact ih mp fp mods2 funs2 heq
    | mod ident attrs content =>
      rw [parseItemsGo] at h
      split at h
      · exact ih mp fp mods funs h
      · split at h
        · cases h
        · cases h
        · rename_i childMods heqMod
          split at h
          · cases h
          · cases h
          · rename_i mods2 funs2 heqGo
            injection h with h2
            injection h2 with h3 h4
            subst h3
            exact closedBelow_append (hmod ident attrs content mp fp
              childMods heqMod) (ih mp fp mods2 funs2 heqGo)

theorem itemsP_of_goP (fuel : Nat) (fs : Fs)
    (hgo : ∀ (items : List Item) (mp fp : List String)
      (mods : List Module) (funs : List Function),
      parseItemsGo fuel fs items mp fp = .ok (mods, funs) →
      ClosedBelow mp mods) :
    ∀ (items : List Item) (mp fp : List String) (attrs : List Attr)
      (mods : List Module),
      parseItems fuel fs items mp fp attrs = .ok mods →
      (∃ m ∈ mods, m.path = mp) ∧ ClosedFrom mp mods := by
  intro items mp fp attrs mods h
  rw [parseItems] at h
  split at h
  · cases h
  · cases h
  · rename_i mods2 funs2 heq
    injection h with h2
    subst h2
    have hbelow := hgo items mp fp mods2 funs2 heq
    constructor
    · exact ⟨⟨funs2, mp, extractCfg attrs⟩,
        List.mem_append.mpr (Or.inr (List.mem_singleton.mpr rfl)), rfl⟩
    · intro m hm
      rcases List.mem_append.mp hm with hm | hm
      · obtain ⟨h1, hlt, h3⟩ := hbelow m hm
        refine ⟨h1, ?_⟩
        intro i hi1 hi2
        rcases Nat.eq_or_lt_of_le hi1 with rfl | hi1
        · exact ⟨⟨funs2, mp, extractCfg attrs⟩,
            List.mem_append.mpr (Or.inr (List.mem_singleton.mpr rfl)),
            by rw [h1]⟩
        · obtain ⟨m2, hm2, hp2⟩ := h3 i hi1 hi2
          exact ⟨m2, List.mem_append.mpr (Or.inl hm2), hp2⟩
      · rcases List.mem_singleton.mp hm with rfl
        refine ⟨by simp, ?_⟩
        intro i hi1 hi2
        have hieq : i = mp.length := Nat.le_antisymm hi2 hi1
        subst hieq
        exact ⟨⟨funs2, mp, extractCfg attrs⟩,
          List.mem_append.mpr (Or.inr (List.mem_singleton.mpr rfl)),
          by simp⟩

theorem modP_closed (fuel : Nat) (fs : Fs) :
    ∀ (ident : String) (attrs : List Attr) (content : Option (List Item))
      (mp fp : List String) (mods : List Module),
      parseModule fuel fs ident attrs content mp fp = .ok mods →
      ClosedBelow mp mods := by
  induction fuel with
  | zero =>
    intro ident attrs content mp fp mods h
    rw [parseModule] at h
    cases h
  | succ n ih =>
    intro ident attrs content mp fp mods h
    rw [parseModule] at h
    split at h
    · cases h
    · rename_i fpc hres
      split at h
      · rename_i items
        exact closedBelow_of_closedFrom
          ((itemsP_of_goP n fs (goP_of_modP n fs ih) items (mp ++ [ident])
            fp attrs mods h).2)
      · split at h
        · cases h
        · cases h
        · rename_i ast hread
          exact closedBelow_of_closedFrom
            ((itemsP_of_goP n fs (goP_of_modP n fs ih) ast.items
              (mp ++ [ident]) fpc ast.attrs mods h).2)

theorem mapM_isSome {α β : Type} (g : α → Option β) :
    ∀ (l : List α), (∀ a ∈ l, (g a).isSome) → (l.mapM g).isSome := by
  intro l
  induction l with
  | nil => intro _; rw [List.mapM_nil]; rfl
  | cons a t ih =>
    intro hall
    rw [List.mapM_cons]
    cases hga : g a with
    | none => exact absurd (hga ▸ hall a (by simp)) (by simp)
    | some b =>
      have := ih (fun x hx => hall x (by simp [hx]))
      cases hmt : t.mapM g with
      | none => rw [hmt] at this; cases this
      | some bs => simp [hga, hmt]

/-- C10: in every successfully parsed Crate the module list is
prefix-closed — for every module with path of length `k` and every
`i ≤ k`, some module of the crate has exactly the first `i` segments
as its path (in particular the crate root module, `i = 0`, always
exists) — and consequently `modules_by_path` and `collect_cfg` never
hit their missing-ancestor panic on any function of the crate. -/
theorem c10_prefix_closed (fuel : Nat) (fs : Fs) (src : List String)
    (name : String) (cr : Crate)
    (h : crateParse fuel fs src name = .ok cr) :
    (∀ m ∈ cr.modules, ∀ i, i ≤ m.path.length →
      ∃ m2 ∈ cr.modules, m2.path = m.path.take i) ∧
    (∀ m ∈ cr.modules, ∀ f : Function, (collectCfg f m cr).isSome) := by
  rw [crateParse] at h
  split at h
  · cases h
  · cases h
  · rename_i ast hread
    split at h
    · cases h
    · cases h
    · rename_i mods heq
      injection h with h2
      subst h2
      have hclosed := itemsP_of_goP fuel fs
        (goP_of_modP fuel fs (modP_closed fuel fs)) ast.items [] src
        ast.attrs mods heq
      have hmain : ∀ m ∈ mods, ∀ i, i ≤ m.path.length →
          ∃ m2 ∈ mods, m2.path = m.path.take i := by
        intro m hm i hi
        exact (hclosed.2 m hm).2 i (Nat.zero_le i) hi
      refine ⟨hmain, ?_⟩
      intro m hm f
      rw [collectCfg, Option.isSome_map']
      have : (modulesByPath ⟨mods, name⟩ m.path).isSome := by
        rw [modulesByPath]
        apply mapM_isSome
        intro i hiRange
        have hi : i + 1 ≤ m.path.length := by
          have := List.mem_range.mp hiRange
          omega
        obtain ⟨m2, hm2, hp2⟩ := hmain m hm (i + 1) hi
        rw [List.find?_isSome]
        exact ⟨m2, hm2, by simp [hp2]⟩
      exact this

/-- Witness for `c10_prefix_closed` on the parsed sample crate. -/
theorem c10_prefix_closed_witness :
    crateParse 2 fsC7 ["src", "lib.rs"] "sample" = .ok crateC7 ∧
    (∃ m2 ∈ crateC7.modules, m2.path = modAC7.path.take 0) ∧
    (collectCfg fFunC7 modAC7 crateC7).isSome := by
  have hparse : crateParse 2 fsC7 ["src", "lib.rs"] "sample" = .ok crateC7 := by
    simp +decide [crateParse, parseItems, parseItemsGo, parseModule,
      resolveModulePath, fsC7, findIgnore, fItemC7, extractCfg, hAttr, cAttr,
      gAttrInner, gAttrOuter, crateC7, modAC7, fFunC7]
  have hthm := c10_prefix_closed 2 fsC7 ["src", "lib.rs"] "sample" crateC7 hparse
  refine ⟨hparse, ?_, ?_⟩
  · exact hthm.1 modAC7 (by decide) 0 (by decide)
  · exact hthm.2 modAC7 (by decide) fFunC7

end ClaimC10

end Riko
